import Mathlib

/-
Verification of the torrent metadata model (torrent_info.hpp).

The header under verification defines the torrent_info class, the
web_seed_entry comparison operators, and the inline accessors
(total_size, piece_length, num_pieces, files, orig_files, rename_file,
is_loaded, hash_for_piece_ptr bounds, creation_date default).  The
file_storage class and the out-of-line member functions (map_block,
map_file, remap_files, copy_on_write, the metadata parser) are only
declared in the header; those parts are modelled from the specification
document and marked as such in their doc comments.
-/

namespace LibtorrentModel

/-- Modelled from the spec: a FileEntry of the File Storage Builder.
Path (sanitized), byte size, and byte offset within the virtual
concatenated file stream.  The file_storage class body is not part of
the header under src. -/
structure FileEntry where
  path : String
  size : Nat
  offset : Nat
deriving Repr, DecidableEq

/-- A (file, file_offset, length) segment, mirroring libtorrent's
file_slice returned by map_block. -/
structure file_slice where
  file_index : Nat
  offset : Nat
  size : Nat
deriving Repr, DecidableEq

/-- A piece-relative byte request, mirroring libtorrent's peer_request
returned by map_file. -/
structure peer_request where
  piece : Nat
  start : Nat
  length : Nat
deriving Repr, DecidableEq

/-- Modelled from the spec: the FileStorage data model.  piece_length,
ordered sequence of FileEntry, display name, total_size; the stored
num_pieces satisfies the geometric invariant established by the
builder.  The file_storage class body is not part of the header under
src. -/
structure FileStorage where
  piece_length : Nat
  name : String
  files : List FileEntry
  total_size : Nat
  num_pieces : Nat
deriving Repr, DecidableEq

/-- Number of files, mirroring file_storage::num_files. -/
def FileStorage.num_files (fs : FileStorage) : Nat := fs.files.length

/-- Sum of the sizes of a list of file entries. -/
def sizeSum (l : List FileEntry) : Nat := (l.map FileEntry.size).sum

/-- Power-of-two test with explicit fuel, so that it evaluates by
structural recursion. -/
def isPow2Fuel : Nat → Nat → Bool
  | 0, _ => false
  | _ + 1, 0 => false
  | _ + 1, 1 => true
  | fuel + 1, m + 2 => (m + 2) % 2 == 0 && isPow2Fuel fuel ((m + 2) / 2)

/-- Power-of-two test used to validate the piece length. -/
def isPow2 (n : Nat) : Bool := isPow2Fuel n n

/-- Lay the declared files out contiguously in declaration order,
starting at the given offset (the single virtual stream layout). -/
def buildEntries : List (String × Nat) → Nat → List FileEntry
  | [], _ => []
  | (p, s) :: rest, off =>
    { path := p, size := s, offset := off } :: buildEntries rest (off + s)

/-- Modelled from the spec: the File Storage Builder.  Validates the
piece length (power of two), computes contiguous monotonic byte
offsets, the total size, and the piece count
ceil(total_size / piece_length).  The builder body is not part of the
header under src. -/
def buildFileStorage (nm : String) (pl : Nat) (entries : List (String × Nat)) :
    Option FileStorage :=
  if isPow2 pl then
    some
      { piece_length := pl
        name := nm
        files := buildEntries entries 0
        total_size := sizeSum (buildEntries entries 0)
        num_pieces := (sizeSum (buildEntries entries 0) + pl - 1) / pl }
  else none

/-- The files of the storage are laid out contiguously starting at
the given offset. -/
def contiguousFrom : Nat → List FileEntry → Prop
  | _, [] => True
  | off, f :: rest => f.offset = off ∧ contiguousFrom (off + f.size) rest

/-- The geometric invariant of a FileStorage: the file sizes sum to
total_size and num_pieces is the ceiling of total_size / piece_length. -/
def FileStorage.geometryInv (fs : FileStorage) : Prop :=
  sizeSum fs.files = fs.total_size ∧
    fs.num_pieces = (fs.total_size + fs.piece_length - 1) / fs.piece_length

/-- Modelled from the spec: the walk underlying map_block.  Starting
at absolute byte position pos with rem bytes still requested, skip the
files that end at or before pos and cut (file, file_offset, length)
segments out of the following files, in ascending file order.  The
map_block body of file_storage is not part of the header under src. -/
def mapBlockGo : List FileEntry → Nat → Nat → Nat → List file_slice
  | [], _, _, _ => []
  | f :: rest, idx, pos, rem =>
    if rem = 0 then []
    else if f.offset + f.size ≤ pos then mapBlockGo rest (idx + 1) pos rem
    else
      { file_index := idx, offset := pos - f.offset
        size := min rem (f.offset + f.size - pos) }
        :: mapBlockGo rest (idx + 1) (pos + min rem (f.offset + f.size - pos))
            (rem - min rem (f.offset + f.size - pos))

/-- Modelled from the spec: map_block translates the piece-relative
byte range (piece, offset, size) into (file, file_offset, length)
segments; it fails when the requested range exceeds the torrent's
total size.  The map_block body of file_storage is not part of the
header under src. -/
def FileStorage.map_block (fs : FileStorage) (piece offset size : Nat) :
    Option (List file_slice) :=
  if fs.total_size < piece * fs.piece_length + offset + size then none
  else some (mapBlockGo fs.files 0 (piece * fs.piece_length + offset) size)

/-- Modelled from the spec: map_file translates a byte range of one
file into a single piece-relative request; it fails when the file
index is out of range or offset + size exceeds that file's size.  The
map_file body of file_storage is not part of the header under src. -/
def FileStorage.map_file (fs : FileStorage) (file offset size : Nat) :
    Option peer_request :=
  match fs.files.get? file with
  | none => none
  | some f =>
    if f.size < offset + size then none
    else
      some
        { piece := (f.offset + offset) / fs.piece_length
          start := (f.offset + offset) % fs.piece_length
          length := size }

/-- Whether a file overlaps the half-open byte range starting at pos
of length rem. -/
def overlaps (pos rem : Nat) (f : FileEntry) : Bool :=
  decide (max pos f.offset < min (pos + rem) (f.offset + f.size))

/-- The number of files with byte spans overlapping the requested
range. -/
def FileStorage.filesSpanned (fs : FileStorage) (pos rem : Nat) : Nat :=
  fs.files.countP (overlaps pos rem)

/-- A tracker entry: url and tier, mirroring announce_entry. -/
structure announce_entry where
  url : String
  tier : Nat
deriving Repr, DecidableEq

/-- A web seed entry, mirroring the web_seed_entry struct of the
header: url, optional auth string, extra HTTP headers, and the seed
type (0 for url_seed, 1 for http_seed, the type_t enum values). -/
structure web_seed_entry where
  url : String
  auth : String
  extra_headers : List (String × String)
  type : Nat
deriving Repr, DecidableEq

/-- The url_seed value of web_seed_entry::type_t. -/
def web_seed_entry.url_seed : Nat := 0

/-- The http_seed value of web_seed_entry::type_t. -/
def web_seed_entry.http_seed : Nat := 1

/-- web_seed_entry::operator== of the header: type and url comparison
only. -/
def web_seed_entry.eq (a e : web_seed_entry) : Bool :=
  a.type == e.type && a.url == e.url

/-- web_seed_entry::operator< of the header: url first, then type. -/
def web_seed_entry.lt (a e : web_seed_entry) : Bool :=
  if a.url < e.url then true
  else if e.url < a.url then false
  else decide (a.type < e.type)

/-- The torrent_info class state: working FileStorage, the optional
pristine copy populated on the first divergent mutation, trackers, web
seeds, DHT nodes, the v1 piece hash bytes of the info section,
comment, creator, creation date, info-hash bytes, and the flags
bitset. -/
structure torrent_info where
  m_files : FileStorage
  m_orig_files : Option FileStorage
  m_urls : List announce_entry
  m_web_seeds : List web_seed_entry
  m_nodes : List (String × Nat)
  m_piece_hashes : List Nat
  m_comment : String
  m_created_by : String
  m_creation_date : Int
  m_info_hash : List Nat
  m_flags : Nat
deriving Repr, DecidableEq

/-- torrent_info::files of the header. -/
def torrent_info.files (ti : torrent_info) : FileStorage := ti.m_files

/-- torrent_info::orig_files of the header: the pristine storage when
diverged, otherwise the working copy. -/
def torrent_info.orig_files (ti : torrent_info) : FileStorage :=
  match ti.m_orig_files with
  | some o => o
  | none => ti.m_files

/-- torrent_info::total_size of the header. -/
def torrent_info.total_size (ti : torrent_info) : Nat := ti.m_files.total_size

/-- torrent_info::piece_length of the header. -/
def torrent_info.piece_length (ti : torrent_info) : Nat := ti.m_files.piece_length

/-- torrent_info::num_pieces of the header. -/
def torrent_info.num_pieces (ti : torrent_info) : Nat := ti.m_files.num_pieces

/-- torrent_info::num_files of the header. -/
def torrent_info.num_files (ti : torrent_info) : Nat := ti.m_files.num_files

/-- torrent_info::is_loaded of the header: true exactly when the file
storage holds at least one file. -/
def torrent_info.is_loaded (ti : torrent_info) : Bool :=
  decide (0 < ti.m_files.num_files)

/-- torrent_info::creation_date of the header. -/
def torrent_info.creation_date (ti : torrent_info) : Int := ti.m_creation_date

/-- torrent_info::comment of the header. -/
def torrent_info.comment (ti : torrent_info) : String := ti.m_comment

/-- torrent_info::creator of the header. -/
def torrent_info.creator (ti : torrent_info) : String := ti.m_created_by

/-- torrent_info::trackers of the header. -/
def torrent_info.trackers (ti : torrent_info) : List announce_entry := ti.m_urls

/-- torrent_info::web_seeds of the header. -/
def torrent_info.web_seeds (ti : torrent_info) : List web_seed_entry :=
  ti.m_web_seeds

/-- torrent_info::nodes of the header. -/
def torrent_info.nodes (ti : torrent_info) : List (String × Nat) := ti.m_nodes

/-- The path of the file at the given index, mirroring
file_storage::file_path (empty when out of range). -/
def FileStorage.file_path (fs : FileStorage) (i : Nat) : String :=
  match fs.files.get? i with
  | some f => f.path
  | none => ""

/-- Replace the path of the entry at the given index. -/
def setPathAt : List FileEntry → Nat → String → List FileEntry
  | [], _, _ => []
  | f :: rest, 0, nw => { f with path := nw } :: rest
  | f :: rest, n + 1, nw => f :: setPathAt rest n nw

/-- Modelled from the spec: file_storage::rename_file updates the path
of one entry of the working copy.  The file_storage class body is not
part of the header under src. -/
def FileStorage.rename_file (fs : FileStorage) (i : Nat) (nw : String) :
    FileStorage :=
  { fs with files := setPathAt fs.files i nw }

/-- Modelled from the spec: torrent_info::copy_on_write clones the
working FileStorage into the original slot if not already diverged.
Only its declaration appears in the header. -/
def torrent_info.copy_on_write (ti : torrent_info) : torrent_info :=
  match ti.m_orig_files with
  | some _ => ti
  | none => { ti with m_orig_files := some ti.m_files }

/-- torrent_info::rename_file of the header: no-op when the name is
unchanged, otherwise copy_on_write then rename the working copy. -/
def torrent_info.rename_file (ti : torrent_info) (index : Nat)
    (new_filename : String) : torrent_info :=
  if ti.m_files.file_path index = new_filename then ti
  else
    { ti.copy_on_write with
      m_files := ti.copy_on_write.m_files.rename_file index new_filename }

/-- Modelled from the spec: torrent_info::remap_files replaces the
working FileStorage outright, with no effect when the new storage's
total size differs; the Bool reports acceptance.  Only its declaration
appears in the header. -/
def torrent_info.remap_files (ti : torrent_info) (f : FileStorage) :
    torrent_info × Bool :=
  if f.total_size = ti.m_files.total_size then ({ ti with m_files := f }, true)
  else (ti, false)

/-- Modelled from the spec: torrent_info::add_tracker appends a
tracker entry.  Only its declaration appears in the header. -/
def torrent_info.add_tracker (ti : torrent_info) (url : String) (tier : Nat) :
    torrent_info :=
  { ti with m_urls := ti.m_urls ++ [{ url := url, tier := tier }] }

/-- torrent_info::clear_trackers, removing all trackers. -/
def torrent_info.clear_trackers (ti : torrent_info) : torrent_info :=
  { ti with m_urls := [] }

/-- Modelled from the spec: torrent_info::add_url_seed appends a url
seed.  Only its declaration appears in the header. -/
def torrent_info.add_url_seed (ti : torrent_info) (url auth : String)
    (headers : List (String × String)) : torrent_info :=
  { ti with m_web_seeds := ti.m_web_seeds ++
      [{ url := url, auth := auth, extra_headers := headers
         type := web_seed_entry.url_seed }] }

/-- Modelled from the spec: torrent_info::add_http_seed appends an
http seed.  Only its declaration appears in the header. -/
def torrent_info.add_http_seed (ti : torrent_info) (url auth : String)
    (headers : List (String × String)) : torrent_info :=
  { ti with m_web_seeds := ti.m_web_seeds ++
      [{ url := url, auth := auth, extra_headers := headers
         type := web_seed_entry.http_seed }] }

/-- torrent_info::set_web_seeds, replacing all web seeds. -/
def torrent_info.set_web_seeds (ti : torrent_info)
    (seeds : List web_seed_entry) : torrent_info :=
  { ti with m_web_seeds := seeds }

/-- torrent_info::add_node of the header, appending a DHT node. -/
def torrent_info.add_node (ti : torrent_info) (node : String × Nat) :
    torrent_info :=
  { ti with m_nodes := ti.m_nodes ++ [node] }

/-- The empty FileStorage of a default-constructed torrent_info. -/
def emptyFileStorage : FileStorage :=
  { piece_length := 0, name := "", files := [], total_size := 0, num_pieces := 0 }

/-- torrent_info(info_hash_t const&) of the header: stores the
info-hash and leaves all other fields empty. -/
def torrent_info.of_info_hash (h : List Nat) : torrent_info :=
  { m_files := emptyFileStorage
    m_orig_files := none
    m_urls := []
    m_web_seeds := []
    m_nodes := []
    m_piece_hashes := []
    m_comment := ""
    m_created_by := ""
    m_creation_date := 0
    m_info_hash := h
    m_flags := 0 }

/-- Modelled from the spec: torrent_info::hash_for_piece returns the
20-byte v1 hash for the piece, bounds-checked against num_pieces.
Only its declaration appears in the header; the inline
hash_for_piece_ptr shows the 20-byte stride into the hash region. -/
def torrent_info.hash_for_piece (ti : torrent_info) (index : Nat) :
    Option (List Nat) :=
  if index < ti.m_files.num_pieces then
    some ((ti.m_piece_hashes.drop (index * 20)).take 20)
  else none

/-- The decoded metadata fields the modelled parser consumes: name,
piece length, declared files, the v1 pieces hash blob, and the
optional auxiliary fields. -/
structure Metadata where
  name : String
  piece_length : Nat
  file_entries : List (String × Nat)
  pieces : List Nat
  comment : Option String
  created_by : Option String
  creation_date : Option Int
  info_hash : List Nat
deriving Repr, DecidableEq

/-- The fatal parse error kinds exercised by the modelled parser,
from the spec's error taxonomy. -/
inductive ParseError where
  | MissingRequiredKey : ParseError
  | InvalidPieceLength : ParseError
  | PieceCountMismatch : ParseError
deriving Repr, DecidableEq

/-- Modelled from the spec: the Metadata Parser.  Requires a nonempty
file list, delegates to the File Storage Builder (which validates the
piece length), validates the v1 hash blob length against
num_pieces times 20, and fills the auxiliary fields with their
defaults when absent (creation date defaults to the epoch).  The
parser body is not part of the header under src. -/
def parse (m : Metadata) : Except ParseError torrent_info :=
  if m.file_entries = [] then Except.error ParseError.MissingRequiredKey
  else
    match buildFileStorage m.name m.piece_length m.file_entries with
    | none => Except.error ParseError.InvalidPieceLength
    | some fs =>
      if m.pieces.length = fs.num_pieces * 20 then
        Except.ok
          { m_files := fs
            m_orig_files := none
            m_urls := []
            m_web_seeds := []
            m_nodes := []
            m_piece_hashes := m.pieces
            m_comment := m.comment.getD ""
            m_created_by := m.created_by.getD ""
            m_creation_date := m.creation_date.getD 0
            m_info_hash := m.info_hash
            m_flags := 0 }
      else Except.error ParseError.PieceCountMismatch

/-- Modelled from the spec: the non-throwing construction.  On success
it returns the parsed model and no error; on a fatal parse error it
sets the error code and leaves the object fully unloaded. -/
def torrent_info.from_metadata_ec (m : Metadata) :
    torrent_info × Option ParseError :=
  match parse m with
  | Except.ok ti => (ti, none)
  | Except.error e => (torrent_info.of_info_hash [], some e)

/-- A concrete two-file storage used to instantiate the theorems. -/
def fsW : FileStorage :=
  { piece_length := 4
    name := "t"
    files := [{ path := "a", size := 3, offset := 0 },
              { path := "b", size := 5, offset := 3 }]
    total_size := 8
    num_pieces := 2 }

/-- A concrete loaded model over fsW with a validated 40-byte v1 hash
blob. -/
def tiW : torrent_info :=
  { m_files := fsW
    m_orig_files := none
    m_urls := []
    m_web_seeds := []
    m_nodes := []
    m_piece_hashes := List.replicate 40 7
    m_comment := ""
    m_created_by := ""
    m_creation_date := 0
    m_info_hash := []
    m_flags := 0 }

/-- Concrete metadata with an invalid (non power-of-two) piece
length. -/
def badMetaW : Metadata :=
  { name := "t"
    piece_length := 3
    file_entries := [("a", 3)]
    pieces := []
    comment := none
    created_by := none
    creation_date := none
    info_hash := [] }

/-- Concrete well-formed metadata with no creation-date key. -/
def goodMetaW : Metadata :=
  { name := "t"
    piece_length := 4
    file_entries := [("a", 3), ("b", 5)]
    pieces := List.replicate 40 7
    comment := none
    created_by := none
    creation_date := none
    info_hash := [] }

/-- A concrete web seed with an auth string and an extra header. -/
def wsA : web_seed_entry :=
  { url := "u", auth := "x", extra_headers := [("k", "v")], type := 0 }

/-- A concrete web seed sharing url and type with wsA but differing in
auth and extra_headers. -/
def wsB : web_seed_entry :=
  { url := "u", auth := "y", extra_headers := [], type := 0 }

theorem isPow2_pos {n : Nat} (h : isPow2 n = true) : 0 < n := by
  cases n with
  | zero => simp [isPow2, isPow2Fuel] at h
  | succ m => exact Nat.succ_pos m

theorem buildEntries_sizes (entries : List (String × Nat)) :
    ∀ off, (buildEntries entries off).map FileEntry.size = entries.map Prod.snd := by
  induction entries with
  | nil => intro off; rfl
  | cons e rest ih =>
    intro off
    cases e with
    | mk p s => simp [buildEntries, ih]

theorem buildEntries_contiguous (entries : List (String × Nat)) :
    ∀ off, contiguousFrom off (buildEntries entries off) := by
  induction entries with
  | nil => intro off; trivial
  | cons e rest ih =>
    intro off
    cases e with
    | mk p s => exact ⟨rfl, ih (off + s)⟩

/-- Everything the builder guarantees about a successfully built
storage. -/
theorem buildFileStorage_spec {nm : String} {pl : Nat} {entries : List (String × Nat)}
    {fs : FileStorage} (h : buildFileStorage nm pl entries = some fs) :
    fs.piece_length = pl ∧ 0 < fs.piece_length ∧
      fs.files = buildEntries entries 0 ∧
      contiguousFrom 0 fs.files ∧
      fs.total_size = sizeSum fs.files ∧
      fs.num_pieces = (fs.total_size + fs.piece_length - 1) / fs.piece_length := by
  unfold buildFileStorage at h
  by_cases hp : isPow2 pl = true
  · rw [if_pos hp] at h
    cases h
    refine ⟨rfl, isPow2_pos hp, rfl, buildEntries_contiguous entries 0, rfl, rfl⟩
  · rw [if_neg hp] at h
    cases h

theorem buildFileStorage_geometryInv {nm : String} {pl : Nat}
    {entries : List (String × Nat)} {fs : FileStorage}
    (h : buildFileStorage nm pl entries = some fs) : fs.geometryInv := by
  obtain ⟨_, _, _, _, ht, hn⟩ := buildFileStorage_spec h
  exact ⟨ht.symm, hn⟩

theorem mapBlockGo_zero (l : List FileEntry) (idx pos : Nat) :
    mapBlockGo l idx pos 0 = [] := by
  cases l with
  | nil => rfl
  | cons f rest => simp [mapBlockGo]

theorem contiguousFrom_le_offset {off : Nat} {l : List FileEntry}
    (h : contiguousFrom off l) : ∀ g ∈ l, off ≤ g.offset := by
  induction l generalizing off with
  | nil => intro g hg; cases hg
  | cons f rest ih =>
    intro g hg
    obtain ⟨hf, hrest⟩ := h
    cases hg with
    | head => omega
    | tail _ hg => exact le_trans (by omega) (ih hrest g hg)

/-- The segment lengths returned by the walk sum to the requested
length, provided the files are laid out contiguously and the range
lies within them. -/
theorem mapBlockGo_sum {l : List FileEntry} {off : Nat}
    (hc : contiguousFrom off l) :
    ∀ idx pos rem, off ≤ pos → pos + rem ≤ off + sizeSum l →
      ((mapBlockGo l idx pos rem).map file_slice.size).sum = rem := by
  induction l generalizing off with
  | nil =>
    intro idx pos rem h1 h2
    have : rem = 0 := by simp [sizeSum] at h2; omega
    subst this
    rfl
  | cons f rest ih =>
    intro idx pos rem h1 h2
    obtain ⟨hf, hrest⟩ := hc
    have hsz : sizeSum (f :: rest) = f.size + sizeSum rest := by
      simp [sizeSum]
    by_cases h0 : rem = 0
    · subst h0; simp [mapBlockGo]
    · by_cases hskip : f.offset + f.size ≤ pos
      · rw [mapBlockGo, if_neg h0, if_pos hskip]
        exact ih hrest (idx + 1) pos rem (by omega) (by omega)
      · rw [mapBlockGo, if_neg h0, if_neg hskip]
        by_cases hfit : rem ≤ f.offset + f.size - pos
        · have hmin : min rem (f.offset + f.size - pos) = rem := by omega
          rw [hmin]
          simp [mapBlockGo_zero]
        · have hmin : min rem (f.offset + f.size - pos) = f.offset + f.size - pos := by
            omega
          rw [hmin]
          have := ih hrest (idx + 1) (pos + (f.offset + f.size - pos))
            (rem - (f.offset + f.size - pos)) (by omega) (by omega)
          simp only [List.map_cons, List.sum_cons, this]
          omega

/-- Every segment the walk produces is at a file index at least idx,
and the indices are strictly ascending. -/
theorem mapBlockGo_sorted (l : List FileEntry) :
    ∀ idx pos rem,
      (∀ s ∈ mapBlockGo l idx pos rem, idx ≤ s.file_index) ∧
        List.Sorted (fun a b => a < b)
          ((mapBlockGo l idx pos rem).map file_slice.file_index) := by
  induction l with
  | nil =>
    intro idx pos rem
    refine ⟨?_, List.sorted_nil⟩
    intro s hs
    cases hs
  | cons f rest ih =>
    intro idx pos rem
    by_cases h0 : rem = 0
    · subst h0
      constructor
      · intro s hs
        rw [mapBlockGo, if_pos rfl] at hs
        cases hs
      · rw [mapBlockGo, if_pos rfl]
        exact List.sorted_nil
    · by_cases hskip : f.offset + f.size ≤ pos
      · rw [mapBlockGo, if_neg h0, if_pos hskip]
        obtain ⟨hlb, hsort⟩ := ih (idx + 1) pos rem
        exact ⟨fun s hs => le_trans (by omega) (hlb s hs), hsort⟩
      · rw [mapBlockGo, if_neg h0, if_neg hskip]
        obtain ⟨hlb, hsort⟩ :=
          ih (idx + 1) (pos + min rem (f.offset + f.size - pos))
            (rem - min rem (f.offset + f.size - pos))
        constructor
        · intro s hs
          cases hs with
          | head => exact le_refl idx
          | tail _ hs => exact le_trans (by omega) (hlb s hs)
        · rw [List.map_cons]
          refine List.sorted_cons.mpr ⟨?_, hsort⟩
          intro b hb
          obtain ⟨s, hs, hb⟩ := List.mem_map.mp hb
          have hlow := hlb s hs
          subst hb
          show idx < s.file_index
          omega

/-- The walk produces exactly one segment per file overlapping the
requested range. -/
theorem mapBlockGo_length {l : List FileEntry} {off : Nat}
    (hc : contiguousFrom off l) :
    ∀ idx pos rem, off ≤ pos →
      (mapBlockGo l idx pos rem).length = l.countP (overlaps pos rem) := by
  induction l generalizing off with
  | nil => intro idx pos rem h1; rfl
  | cons f rest ih =>
    intro idx pos rem h1
    obtain ⟨hf, hrest⟩ := hc
    by_cases h0 : rem = 0
    · subst h0
      rw [mapBlockGo, if_pos rfl]
      have : ∀ g ∈ f :: rest, ¬ (overlaps pos 0 g = true) := by
        intro g hg hov
        simp only [overlaps, decide_eq_true_eq] at hov
        omega
      rw [List.countP_eq_zero.mpr this]
      rfl
    · by_cases hskip : f.offset + f.size ≤ pos
      · rw [mapBlockGo, if_neg h0, if_pos hskip]
        rw [List.countP_cons_of_neg]
        · exact ih hrest (idx + 1) pos rem (by omega)
        · simp only [overlaps, decide_eq_true_eq]
          omega
      · rw [mapBlockGo, if_neg h0, if_neg hskip]
        rw [List.countP_cons_of_pos]
        · rw [List.length_cons]
          by_cases hfit : rem ≤ f.offset + f.size - pos
          · have hmin : min rem (f.offset + f.size - pos) = rem := by omega
            rw [hmin, Nat.sub_self, mapBlockGo_zero]
            have : ∀ g ∈ rest, ¬ (overlaps pos rem g = true) := by
              intro g hg hov
              have hgo := contiguousFrom_le_offset hrest g hg
              simp only [overlaps, decide_eq_true_eq] at hov
              omega
            rw [List.countP_eq_zero.mpr this]
            rfl
          · have hmin : min rem (f.offset + f.size - pos) = f.offset + f.size - pos := by
              omega
            rw [hmin]
            have hrec := ih hrest (idx + 1) (pos + (f.offset + f.size - pos))
              (rem - (f.offset + f.size - pos)) (by omega)
            rw [hrec]
            have : ∀ g ∈ rest,
                (overlaps (pos + (f.offset + f.size - pos))
                  (rem - (f.offset + f.size - pos)) g = true ↔
                    overlaps pos rem g = true) := by
              intro g hg
              have hgo := contiguousFrom_le_offset hrest g hg
              simp only [overlaps, decide_eq_true_eq]
              omega
            rw [List.countP_congr this]
        · simp only [overlaps, decide_eq_true_eq]
          omega

/-- When the walk returns a single segment, that segment lies inside
one file, carries the whole requested length, and records the position
of the request inside that file. -/
theorem mapBlockGo_single {l : List FileEntry} {off : Nat}
    (hc : contiguousFrom off l) :
    ∀ idx pos rem s, off ≤ pos → pos + rem ≤ off + sizeSum l →
      mapBlockGo l idx pos rem = [s] →
      ∃ j f, l.get? j = some f ∧
        s.file_index = idx + j ∧ s.offset = pos - f.offset ∧ s.size = rem ∧
        f.offset ≤ pos ∧ pos + rem ≤ f.offset + f.size := by
  induction l generalizing off with
  | nil =>
    intro idx pos rem s h1 h2 he
    simp [mapBlockGo] at he
  | cons f rest ih =>
    intro idx pos rem s h1 h2 he
    have hsum := mapBlockGo_sum hc idx pos rem h1 h2
    obtain ⟨hf, hrest⟩ := hc
    have hsz : sizeSum (f :: rest) = f.size + sizeSum rest := by simp [sizeSum]
    rw [he] at hsum
    simp only [List.map_cons, List.map_nil, List.sum_cons, List.sum_nil,
      Nat.add_zero] at hsum
    by_cases h0 : rem = 0
    · subst h0
      rw [mapBlockGo, if_pos rfl] at he
      cases he
    · by_cases hskip : f.offset + f.size ≤ pos
      · rw [mapBlockGo, if_neg h0, if_pos hskip] at he
        obtain ⟨j, g, hg, h3, h4, h5, h6, h7⟩ :=
          ih hrest (idx + 1) pos rem s (by omega) (by omega) he
        exact ⟨j + 1, g, hg, by omega, h4, h5, h6, h7⟩
      · rw [mapBlockGo, if_neg h0, if_neg hskip] at he
        injection he with hhead htail
        have hmin : min rem (f.offset + f.size - pos) = rem := by
          rw [← hhead] at hsum
          exact hsum
        refine ⟨0, f, rfl, ?_, by rw [← hhead], ?_, by omega, by omega⟩
        · rw [← hhead]
          show idx = idx + 0
          omega
        rw [← hhead]
        show min rem (f.offset + f.size - pos) = rem
        exact hmin

/-- Claim C2: for a valid request, map_block succeeds with segments in
ascending file order summing exactly to the requested size, one
segment per spanned file (so a block spanning exactly two files yields
exactly two segments); a request beyond total_size fails. -/
theorem map_block_correct {nm : String} {pl : Nat}
    {entries : List (String × Nat)} {fs : FileStorage}
    (hb : buildFileStorage nm pl entries = some fs)
    (piece offset size : Nat) :
    (piece * fs.piece_length + offset + size ≤ fs.total_size →
      ∃ sl, fs.map_block piece offset size = some sl ∧
        (sl.map file_slice.size).sum = size ∧
        List.Sorted (fun a b => a < b) (sl.map file_slice.file_index) ∧
        (fs.filesSpanned (piece * fs.piece_length + offset) size = 2 →
          sl.length = 2)) ∧
    (fs.total_size < piece * fs.piece_length + offset + size →
      fs.map_block piece offset size = none) := by
  obtain ⟨hpl, hplpos, hfiles, hcont, htot, hnp⟩ := buildFileStorage_spec hb
  constructor
  · intro hle
    refine ⟨mapBlockGo fs.files 0 (piece * fs.piece_length + offset) size,
      ?_, ?_, ?_, ?_⟩
    · unfold FileStorage.map_block
      rw [if_neg (by omega)]
    · exact mapBlockGo_sum hcont 0 _ size (Nat.zero_le _) (by omega)
    · exact (mapBlockGo_sorted fs.files 0 _ size).2
    · intro h2
      rw [mapBlockGo_length hcont 0 _ size (Nat.zero_le _)]
      exact h2
  · intro hgt
    unfold FileStorage.map_block
    rw [if_pos hgt]

/-- Claim C3: map_file is the left inverse of map_block on a range
contained in a single file, and fails on a range past the end of the
file or an out-of-range file index. -/
theorem map_file_left_inverse {nm : String} {pl : Nat}
    {entries : List (String × Nat)} {fs : FileStorage}
    (hb : buildFileStorage nm pl entries = some fs)
    (piece offset size : Nat) (ho : offset < fs.piece_length)
    (s : file_slice) (hm : fs.map_block piece offset size = some [s]) :
    fs.map_file s.file_index s.offset s.size =
      some { piece := piece, start := offset, length := size } ∧
    (∀ i f off2 sz, fs.files.get? i = some f → f.size < off2 + sz →
      fs.map_file i off2 sz = none) ∧
    (∀ i off2 sz, fs.num_files ≤ i → fs.map_file i off2 sz = none) := by
  obtain ⟨hpl, hplpos, hfiles, hcont, htot, hnp⟩ := buildFileStorage_spec hb
  refine ⟨?_, ?_, ?_⟩
  · unfold FileStorage.map_block at hm
    by_cases hr : fs.total_size < piece * fs.piece_length + offset + size
    · rw [if_pos hr] at hm
      cases hm
    · rw [if_neg hr] at hm
      injection hm with hm
      obtain ⟨j, f, hg, hfi, hoff, hsz, hfo, hfe⟩ :=
        mapBlockGo_single hcont 0 (piece * fs.piece_length + offset) size s
          (Nat.zero_le _) (by omega) hm
      have hfi0 : s.file_index = j := by omega
      have hcomm : piece * fs.piece_length = fs.piece_length * piece :=
        Nat.mul_comm piece fs.piece_length
      have hstart : f.offset + s.offset = fs.piece_length * piece + offset := by
        omega
      have hdiv : (fs.piece_length * piece + offset) / fs.piece_length = piece := by
        rw [Nat.add_comm, Nat.add_mul_div_left _ _ hplpos, Nat.div_eq_of_lt ho,
          Nat.zero_add]
      have hmod : (fs.piece_length * piece + offset) % fs.piece_length = offset := by
        rw [Nat.mul_add_mod, Nat.mod_eq_of_lt ho]
      simp only [FileStorage.map_file, hfi0, hg]
      rw [if_neg (by omega)]
      rw [hstart, hdiv, hmod, hsz]
  · intro i f off2 sz hg hlt
    simp only [FileStorage.map_file, hg]
    rw [if_pos hlt]
  · intro i off2 sz hi
    have : fs.files.get? i = none := List.get?_eq_none.mpr hi
    simp only [FileStorage.map_file, this]

theorem buildW : buildFileStorage "t" 4 [("a", 3), ("b", 5)] = some fsW := rfl

theorem map_block_correct_witness :
    0 * fsW.piece_length + 2 + 3 ≤ fsW.total_size ∧
      ∃ sl, fsW.map_block 0 2 3 = some sl ∧
        (sl.map file_slice.size).sum = 3 ∧
        List.Sorted (fun a b => a < b) (sl.map file_slice.file_index) ∧
        (fsW.filesSpanned (0 * fsW.piece_length + 2) 3 = 2 → sl.length = 2) := by
  exact ⟨by decide, (map_block_correct buildW 0 2 3).1 (by decide)⟩

theorem map_file_left_inverse_witness :
    0 < fsW.piece_length ∧
      fsW.map_block 1 0 4 = some [{ file_index := 1, offset := 1, size := 4 }] ∧
      fsW.map_file 1 1 4 = some { piece := 1, start := 0, length := 4 } := by
  refine ⟨by decide, rfl, ?_⟩
  exact (map_file_left_inverse buildW 1 0 4 (by decide)
    { file_index := 1, offset := 1, size := 4 } rfl).1

theorem setPathAt_sizes (l : List FileEntry) :
    ∀ i nw, (setPathAt l i nw).map FileEntry.size = l.map FileEntry.size := by
  induction l with
  | nil => intro i nw; rfl
  | cons f rest ih =>
    intro i nw
    cases i with
    | zero => rfl
    | succ n => simp [setPathAt, ih]

theorem setPathAt_get (l : List FileEntry) :
    ∀ i nw, i < l.length →
      ∃ f, (setPathAt l i nw).get? i = some f ∧ f.path = nw := by
  induction l with
  | nil => intro i nw h; simp at h
  | cons g rest ih =>
    intro i nw h
    cases i with
    | zero => exact ⟨{ g with path := nw }, rfl, rfl⟩
    | succ n =>
      obtain ⟨f, h1, h2⟩ := ih n nw (by simpa using h)
      exact ⟨f, h1, h2⟩

theorem FileStorage.rename_file_geometryInv (fs : FileStorage) (i : Nat)
    (nw : String) (h : fs.geometryInv) : (fs.rename_file i nw).geometryInv := by
  obtain ⟨h1, h2⟩ := h
  constructor
  · show sizeSum (setPathAt fs.files i nw) = fs.total_size
    rw [sizeSum, setPathAt_sizes]
    exact h1
  · exact h2

theorem copy_on_write_m_files (ti : torrent_info) :
    ti.copy_on_write.m_files = ti.m_files := by
  unfold torrent_info.copy_on_write
  cases ti.m_orig_files with
  | none => rfl
  | some o => rfl

/-- Claim C1: for every successfully built model the file sizes sum to
total_size and num_pieces is the ceiling of total_size divided by
piece_length; the geometric invariant holds after construction and is
preserved by rename_file, by remap_files (whose accepted replacement
satisfies it, and whose rejection leaves the storage untouched), and
every other mutation operation leaves the FileStorage unchanged. -/
theorem claim_geometry_invariant {nm : String} {pl : Nat}
    {entries : List (String × Nat)} {fs : FileStorage}
    (hb : buildFileStorage nm pl entries = some fs)
    (ti : torrent_info) (hf : ti.m_files = fs) :
    ((ti.files.files.map FileEntry.size).sum = ti.total_size ∧
      ti.num_pieces = (ti.total_size + ti.piece_length - 1) / ti.piece_length) ∧
    (∀ i s, (ti.rename_file i s).m_files.geometryInv) ∧
    (∀ g, g.geometryInv → ((ti.remap_files g).1).m_files.geometryInv) ∧
    (∀ u t, (ti.add_tracker u t).m_files = ti.m_files) ∧
    (ti.clear_trackers.m_files = ti.m_files) ∧
    (∀ u a h, (ti.add_url_seed u a h).m_files = ti.m_files) ∧
    (∀ u a h, (ti.add_http_seed u a h).m_files = ti.m_files) ∧
    (∀ s, (ti.set_web_seeds s).m_files = ti.m_files) ∧
    (∀ n, (ti.add_node n).m_files = ti.m_files) := by
  have hinv : ti.m_files.geometryInv := by
    rw [hf]
    exact buildFileStorage_geometryInv hb
  refine ⟨⟨hinv.1, hinv.2⟩, ?_, ?_, fun u t => rfl, rfl, fun u a h => rfl,
    fun u a h => rfl, fun s => rfl, fun n => rfl⟩
  · intro i s
    unfold torrent_info.rename_file
    by_cases hcase : ti.m_files.file_path i = s
    · rw [if_pos hcase]
      exact hinv
    · rw [if_neg hcase]
      show (ti.copy_on_write.m_files.rename_file i s).geometryInv
      rw [copy_on_write_m_files]
      exact FileStorage.rename_file_geometryInv ti.m_files i s hinv
  · intro g hg
    unfold torrent_info.remap_files
    by_cases hc2 : g.total_size = ti.m_files.total_size
    · rw [if_pos hc2]
      exact hg
    · rw [if_neg hc2]
      exact hinv

theorem claim_geometry_invariant_witness :
    buildFileStorage "t" 4 [("a", 3), ("b", 5)] = some fsW ∧
      tiW.m_files = fsW ∧
      ((tiW.files.files.map FileEntry.size).sum = tiW.total_size ∧
        tiW.num_pieces = (tiW.total_size + tiW.piece_length - 1) / tiW.piece_length) ∧
      (tiW.rename_file 0 "c").m_files.geometryInv := by
  have h := claim_geometry_invariant buildW tiW rfl
  exact ⟨buildW, rfl, h.1, h.2.1 0 "c"⟩

/-- Claim C4: rename_file with the current name is a no-op; otherwise
the rename goes through copy_on_write (cloning the pristine storage
into the original slot on first divergence), after which files()
reports the new name for the index while orig_files() still reports
the pre-rename name; an already diverged original slot is left
untouched. -/
theorem rename_file_copy_on_write (ti : torrent_info) (i : Nat) (nw : String) :
    (ti.m_files.file_path i = nw → ti.rename_file i nw = ti) ∧
    (ti.m_orig_files = none → ti.m_files.file_path i ≠ nw →
      i < ti.m_files.num_files →
      (ti.rename_file i nw).files.file_path i = nw ∧
        (ti.rename_file i nw).orig_files.file_path i = ti.m_files.file_path i) ∧
    (∀ o, ti.m_orig_files = some o → ti.m_files.file_path i ≠ nw →
      (ti.rename_file i nw).orig_files = o) := by
  refine ⟨?_, ?_, ?_⟩
  · intro heq
    unfold torrent_info.rename_file
    rw [if_pos heq]
  · intro hnone hne hlt
    have hmo : (ti.rename_file i nw).m_orig_files = some ti.m_files := by
      unfold torrent_info.rename_file
      rw [if_neg hne]
      show ti.copy_on_write.m_orig_files = some ti.m_files
      unfold torrent_info.copy_on_write
      rw [hnone]
    have hmf : (ti.rename_file i nw).m_files = ti.m_files.rename_file i nw := by
      unfold torrent_info.rename_file
      rw [if_neg hne]
      show ti.copy_on_write.m_files.rename_file i nw = ti.m_files.rename_file i nw
      rw [copy_on_write_m_files]
    constructor
    · show FileStorage.file_path (ti.rename_file i nw).m_files i = nw
      rw [hmf]
      obtain ⟨f, h1, h2⟩ := setPathAt_get ti.m_files.files i nw hlt
      simp only [FileStorage.file_path, FileStorage.rename_file, h1]
      exact h2
    · unfold torrent_info.orig_files
      rw [hmo]
  · intro o ho hne
    have hmo : (ti.rename_file i nw).m_orig_files = some o := by
      unfold torrent_info.rename_file
      rw [if_neg hne]
      show ti.copy_on_write.m_orig_files = some o
      unfold torrent_info.copy_on_write
      rw [ho]
      exact ho
    unfold torrent_info.orig_files
    rw [hmo]

theorem rename_file_copy_on_write_witness :
    tiW.m_orig_files = none ∧ tiW.m_files.file_path 0 ≠ "b" ∧
      0 < tiW.m_files.num_files ∧
      ((tiW.rename_file 0 "b").files.file_path 0 = "b" ∧
        (tiW.rename_file 0 "b").orig_files.file_path 0 = tiW.m_files.file_path 0) := by
  exact ⟨rfl, by decide, by decide,
    (rename_file_copy_on_write tiW 0 "b").2.1 rfl (by decide) (by decide)⟩

/-- Claim C5: remap_files with a storage whose total size differs
leaves the model entirely unchanged and reports the rejection through
its own return value, not through the parse error taxonomy. -/
theorem remap_files_rejection (ti : torrent_info) (f : FileStorage)
    (h : f.total_size ≠ ti.m_files.total_size) :
    ti.remap_files f = (ti, false) := by
  unfold torrent_info.remap_files
  rw [if_neg h]

theorem remap_files_rejection_witness :
    emptyFileStorage.total_size ≠ tiW.m_files.total_size ∧
      tiW.remap_files emptyFileStorage = (tiW, false) :=
  ⟨by decide, remap_files_rejection tiW emptyFileStorage (by decide)⟩

/-- Claim C6: on a model whose v1 hash blob has the validated length
num_pieces times 20, hash_for_piece returns a 20-byte hash for every
index below num_pieces, and rejects an index at or beyond num_pieces
as out of range. -/
theorem hash_for_piece_bounds (ti : torrent_info)
    (hv : ti.m_piece_hashes.length = ti.m_files.num_pieces * 20) :
    (∀ i, i < ti.m_files.num_pieces →
      ∃ h, ti.hash_for_piece i = some h ∧ h.length = 20) ∧
    (∀ i, ti.m_files.num_pieces ≤ i → ti.hash_for_piece i = none) := by
  constructor
  · intro i hi
    refine ⟨(ti.m_piece_hashes.drop (i * 20)).take 20, ?_, ?_⟩
    · unfold torrent_info.hash_for_piece
      rw [if_pos hi]
    · rw [List.length_take, List.length_drop, hv]
      omega
  · intro i hi
    unfold torrent_info.hash_for_piece
    rw [if_neg (by omega)]

theorem hash_for_piece_bounds_witness :
    tiW.m_piece_hashes.length = tiW.m_files.num_pieces * 20 ∧
      (∃ h, tiW.hash_for_piece 0 = some h ∧ h.length = 20) ∧
      tiW.hash_for_piece 2 = none := by
  have h := hash_for_piece_bounds tiW rfl
  exact ⟨rfl, h.1 0 (by decide), h.2 2 (by decide)⟩

/-- Claim C7: whenever the non-throwing construction reports a fatal
parse error, the resulting model is fully unloaded: is_loaded is false
and its file list is empty. -/
theorem parse_error_unloaded (m : Metadata) (ti : torrent_info) (e : ParseError)
    (h : torrent_info.from_metadata_ec m = (ti, some e)) :
    ti.is_loaded = false ∧ ti.files.num_files = 0 := by
  unfold torrent_info.from_metadata_ec at h
  cases hp : parse m with
  | ok t =>
    rw [hp] at h
    injection h with h1 h2
    exact Option.noConfusion h2
  | error e2 =>
    rw [hp] at h
    injection h with h1 h2
    rw [← h1]
    exact ⟨rfl, rfl⟩

theorem parse_error_unloaded_witness :
    torrent_info.from_metadata_ec badMetaW =
        (torrent_info.of_info_hash [], some ParseError.InvalidPieceLength) ∧
      (torrent_info.of_info_hash []).is_loaded = false ∧
      (torrent_info.of_info_hash []).files.num_files = 0 :=
  ⟨rfl, parse_error_unloaded badMetaW (torrent_info.of_info_hash [])
    ParseError.InvalidPieceLength rfl⟩

/-- Claim C8: a model constructed from only an info-hash is unloaded
with an empty file list; in general is_loaded is true exactly when the
FileStorage holds at least one file. -/
theorem info_hash_construction_unloaded (h : List Nat) (ti : torrent_info) :
    (torrent_info.of_info_hash h).is_loaded = false ∧
      (torrent_info.of_info_hash h).files.num_files = 0 ∧
      (ti.is_loaded = true ↔ 0 < ti.m_files.num_files) := by
  refine ⟨rfl, rfl, ?_⟩
  simp [torrent_info.is_loaded]

/-- Claim C9: when the metadata has no creation-date key, parsing
succeeds (on otherwise valid input) with creation_date equal to the
epoch, value 0. -/
theorem creation_date_default_epoch (m : Metadata) (ti : torrent_info)
    (hnone : m.creation_date = none) (h : parse m = Except.ok ti) :
    ti.creation_date = 0 := by
  unfold parse at h
  split at h
  · cases h
  · split at h
    · cases h
    · split at h
      · injection h with h
        rw [← h]
        show m.creation_date.getD 0 = 0
        rw [hnone]
        rfl
      · cases h

theorem creation_date_default_epoch_witness :
    goodMetaW.creation_date = none ∧ parse goodMetaW = Except.ok tiW ∧
      tiW.creation_date = 0 :=
  ⟨rfl, rfl, creation_date_default_epoch goodMetaW tiW rfl rfl⟩

/-- Claim C10: web_seed_entry equality compares only the url and type
fields, and the less-than operator is the strict lexicographic order
on the (url, type) pair, both ignoring auth and extra_headers. -/
theorem web_seed_entry_compares_url_type (a e : web_seed_entry) :
    (web_seed_entry.eq a e = true ↔ a.url = e.url ∧ a.type = e.type) ∧
    (web_seed_entry.lt a e = true ↔
      a.url < e.url ∨ (a.url = e.url ∧ a.type < e.type)) := by
  constructor
  · simp only [web_seed_entry.eq, Bool.and_eq_true, beq_iff_eq]
    exact and_comm
  · unfold web_seed_entry.lt
    by_cases h1 : a.url < e.url
    · rw [if_pos h1]
      simp [h1]
    · rw [if_neg h1]
      by_cases h2 : e.url < a.url
      · rw [if_pos h2]
        constructor
        · intro hfalse
          cases hfalse
        · rintro (hlt | ⟨heq, _⟩)
          · exact absurd hlt h1
          · rw [heq] at h2
            exact absurd h2 (lt_irrefl _)
      · have heq : a.url = e.url := le_antisymm (not_lt.mp h2) (not_lt.mp h1)
        rw [if_neg h2]
        simp [heq, h1, decide_eq_true_eq]

theorem info_hash_construction_unloaded_witness :
    (torrent_info.of_info_hash [1, 2]).is_loaded = false ∧
      (torrent_info.of_info_hash [1, 2]).files.num_files = 0 ∧
      (tiW.is_loaded = true ↔ 0 < tiW.m_files.num_files) :=
  info_hash_construction_unloaded [1, 2] tiW

theorem web_seed_entry_compares_url_type_witness :
    (web_seed_entry.eq wsA wsB = true ↔ wsA.url = wsB.url ∧ wsA.type = wsB.type) ∧
      (web_seed_entry.lt wsA wsB = true ↔
        wsA.url < wsB.url ∨ (wsA.url = wsB.url ∧ wsA.type < wsB.type)) :=
  web_seed_entry_compares_url_type wsA wsB

end LibtorrentModel
